import Mathlib

/-!
Verification of the content-extraction pipeline of getdoc.py.

The HTML document tree (as produced by BeautifulSoup) is modelled as a
rooted forest of nodes: an Element carries a tag name, an ordered attribute
list and an ordered child list; Text and Comment carry their string.  A
whole document (the soup object) is a forest, i.e. a list of top-level
nodes, since the BeautifulSoup root is itself not a tag.

Every pipeline pass of getdoc.py walks a snapshot of the matching nodes
(find_all) and then mutates the live tree.  Because find_all enumerates in
pre-order and each mutation only touches the mutated node's parent (which
precedes it in pre-order), one such pass is equivalent to a single
recursive top-down rewrite of the tree; the functions below are those
rewrites.
-/

inductive Node where
  | elem (tag : String) (attrs : List (String × String)) (children : List Node)
  | text (s : String)
  | comment (s : String)
deriving Repr

/-- Children of a node (Text/Comment have none). -/
def childrenOf : Node → List Node
  | .elem _ _ cs => cs
  | _ => []

/-- Attribute list of a node (Text/Comment have none). -/
def attrsOf : Node → List (String × String)
  | .elem _ a _ => a
  | _ => []

/-- First value bound to attribute key k, as in a Python dict lookup. -/
def lookupAttr (k : String) (a : List (String × String)) : Option String :=
  (a.find? (fun p => p.1 = k)).map (fun p => p.2)

/-- tag.get(k) on the tree: attribute value of an Element, none otherwise. -/
def getAttr (n : Node) (k : String) : Option String :=
  match n with
  | .elem _ a _ => lookupAttr k a
  | _ => none

/-- Is the node an Element with the given tag name? -/
def tagIs (n : Node) (t : String) : Bool :=
  match n with
  | .elem tg _ _ => tg = t
  | _ => false

/-- Is the node an Element at all (bs4: tag.name is not None)? -/
def isElemB : Node → Bool
  | .elem _ _ _ => true
  | _ => false

/-! ### Character-list string utilities -/

/-- Does the list s start with the pattern p? -/
def leadsWith {α : Type} [DecidableEq α] : List α → List α → Bool
  | [], _ => true
  | _ :: _, [] => false
  | p :: ps, c :: cs => p = c && leadsWith ps cs

/-- Does the pattern p occur anywhere in s (Python: p in s)? -/
def hasSub {α : Type} [DecidableEq α] (p : List α) : List α → Bool
  | [] => leadsWith p []
  | c :: cs => leadsWith p (c :: cs) || hasSub p cs

/-- Python: pat in s. -/
def sContains (s pat : String) : Bool := hasSub pat.data s.data

/-- Python: s.startswith(pat). -/
def sLeads (s pat : String) : Bool := leadsWith pat.data s.data

/-- Python: s.endswith(pat). -/
def sEnds (s pat : String) : Bool := leadsWith pat.data.reverse s.data.reverse

/-- ASCII whitespace as stripped by Python str.strip(). -/
def isWSChar (c : Char) : Bool :=
  c = ' ' || c = '\t' || c = '\n' || c = '\r' || c = '\x0b' || c = '\x0c'

/-- Python: not s.strip() - the string is whitespace only. -/
def isWS (s : String) : Bool := s.data.all isWSChar

def splitWSAux : List Char → List Char → List String
  | [], acc => if acc.isEmpty then [] else [String.mk acc.reverse]
  | c :: cs, acc =>
      if isWSChar c then
        if acc.isEmpty then splitWSAux cs [] else String.mk acc.reverse :: splitWSAux cs []
      else splitWSAux cs (c :: acc)

/-- Split on whitespace runs, as bs4 does to build the multi-valued class list. -/
def splitWS (s : String) : List String := splitWSAux s.data []

/-- bs4 class matching: the element's class attribute, split on whitespace,
contains the token c. -/
def hasClassTok (n : Node) (c : String) : Bool :=
  match getAttr n "class" with
  | some v => (splitWS v).contains c
  | none => false

/-! ### rm_by_attr (source lines 104-119) and its matcher

A removal-rule value is either a literal string or a pattern; a pattern is
modelled as its decision function (the regexes of getdoc.py are all
finite-alternation anchored patterns, spelled out below where used). -/

inductive AMatch where
  | exact (s : String)
  | tester (f : String → Bool)

def AMatch.test : AMatch → String → Bool
  | .exact s, v => s = v
  | .tester f, v => f v

/-- bs4 find_all(tag, attrs={attr: v}) element test: the tag filter (none =
any tag) and the attribute match; for the multi-valued class attribute the
value is matched against each class token, otherwise against the whole
attribute value. -/
def nodeMatches (tagF : Option (List String)) (attr : String) (m : AMatch) (n : Node) : Bool :=
  (match tagF, n with
   | none, .elem _ _ _ => true
   | some ts, .elem tg _ _ => ts.contains tg
   | _, _ => false)
  &&
  (match getAttr n attr with
   | some v => if attr = "class" then (splitWS v).any (fun tk => m.test tk) else m.test v
   | none => false)

mutual
/-- Extract every descendant matching p (a find_all snapshot followed by
extract() on each hit; hits inside an already-extracted subtree leave the
tree with it). -/
def rmN (p : Node → Bool) : Node → Node
  | .elem t a cs => .elem t a (rmF p cs)
  | n => n
def rmF (p : Node → Bool) : List Node → List Node
  | [] => []
  | c :: cs => if p c then rmF p cs else rmN p c :: rmF p cs
end

mutual
/-- Number of nodes in the subtree matching p (self included). -/
def cntN (p : Node → Bool) : Node → Nat
  | n@(.elem _ _ cs) => (if p n then 1 else 0) + cntF p cs
  | n => if p n then 1 else 0
def cntF (p : Node → Bool) : List Node → Nat
  | [] => 0
  | c :: cs => cntN p c + cntF p cs
end

/-- rm_by_attr(bs, tag, attr, val): normalise val to a list and remove all
matches of each value in turn (source lines 104-119). -/
def rm_by_attr (l : List Node) (tagF : Option (List String)) (attr : String)
    (vals : List AMatch) : List Node :=
  vals.foldl (fun acc m => rmF (nodeMatches tagF attr m) acc) l

/-! ### Tree size and structural equality test -/

mutual
def sizeN : Node → Nat
  | .elem _ _ cs => 1 + sizeF cs
  | .text _ => 1
  | .comment _ => 1
def sizeF : List Node → Nat
  | [] => 0
  | c :: cs => sizeN c + sizeF cs
end

mutual
def beqN : Node → Node → Bool
  | .elem t a cs, .elem t2 a2 cs2 => t = t2 && a = a2 && beqF cs cs2
  | .text s, .text s2 => s = s2
  | .comment s, .comment s2 => s = s2
  | _, _ => false
def beqF : List Node → List Node → Bool
  | [], [] => true
  | c :: cs, c2 :: cs2 => beqN c c2 && beqF cs cs2
  | _, _ => false
end

/-! ### Empty-node pruning (source lines 228-236)

One pass extracts every Element that has no children, or whose only child
is a whitespace-only Text node, except img tags; the while loop repeats
until a pass changes nothing. -/

/-- The removal condition of one pruning pass, on the node's current
children (source line 231-232). -/
def removableN : Node → Bool
  | .elem t _ cs =>
      (decide (t ≠ "img")) &&
      (cs.isEmpty ||
       (match cs with
        | [.text s] => isWS s
        | _ => false))
  | _ => false

/-- One full pass of the pruning loop. -/
def prunePassF (l : List Node) : List Node := rmF removableN l

/-- The while loop, with enough fuel to reach the fixed point. -/
def pruneLoop : Nat → List Node → List Node
  | 0, l => l
  | fuel + 1, l =>
      let l2 := prunePassF l
      if beqF l2 l then l else pruneLoop fuel l2

/-- Prune empty nodes to a fixed point (the while loop of lines 228-236). -/
def pruneEmpty (l : List Node) : List Node := pruneLoop (sizeF l) l

/-! ### Single-child div unwrapping (source lines 241-243)

Every div whose single child is itself an Element is replaced by that
child in its parent's child list; the pass runs over the pre-order
snapshot of all divs, so an unwrapped div's child div is itself processed. -/

mutual
def unwrapN : Node → List Node
  | .elem t a [c] =>
      if t = "div" && isElemB c then unwrapN c else [.elem t a (unwrapF [c])]
  | .elem t a cs => [.elem t a (unwrapF cs)]
  | n => [n]
def unwrapF : List Node → List Node
  | [] => []
  | c :: cs => unwrapN c ++ unwrapF cs
end

/-! ### Attribute allow-list enforcement (source lines 249-251) -/

/-- The fixed attribute allow-list of the source. -/
def allowedKey (k : String) : Bool := k = "src" || k = "href" || k = "alt"

mutual
def stripAttrsN : Node → Node
  | .elem t a cs => .elem t (a.filter (fun p => allowedKey p.1)) (stripAttrsF cs)
  | n => n
def stripAttrsF : List Node → List Node
  | [] => []
  | c :: cs => stripAttrsN c :: stripAttrsF cs
end

/-- The attribute step: a no-op when the debug keep-attributes flag is set. -/
def attrStep (dbgKeepattrs : Bool) (l : List Node) : List Node :=
  if dbgKeepattrs then l else stripAttrsF l

/-! ### Collectors used in the statements -/

mutual
/-- All Text contents of the subtree, in document order. -/
def textsN : Node → List String
  | .elem _ _ cs => textsF cs
  | .text s => [s]
  | .comment _ => []
def textsF : List Node → List String
  | [] => []
  | c :: cs => textsN c ++ textsF cs
end

mutual
/-- All Elements of the subtree (self included), in document order. -/
def elemsN : Node → List Node
  | n@(.elem _ _ cs) => n :: elemsF cs
  | _ => []
def elemsF : List Node → List Node
  | [] => []
  | c :: cs => elemsN c ++ elemsF cs
end

mutual
/-- find_all(p): every node of the subtree satisfying p, in document order. -/
def findAllN (p : Node → Bool) : Node → List Node
  | n@(.elem _ _ cs) => (if p n then [n] else []) ++ findAllF p cs
  | n => if p n then [n] else []
def findAllF (p : Node → Bool) : List Node → List Node
  | [] => []
  | c :: cs => findAllN p c ++ findAllF p cs
end

mutual
/-- find(p): the first node of the subtree satisfying p, in document order. -/
def findN (p : Node → Bool) : Node → Option Node
  | n@(.elem _ _ cs) => if p n then some n else findF p cs
  | n => if p n then some n else none
def findF (p : Node → Bool) : List Node → Option Node
  | [] => none
  | c :: cs =>
      match findN p c with
      | some r => some r
      | none => findF p cs
end

/-! ### Candidate Locator (source lines 134-144)

The probes, in the source's order; each regex of line 135-137 is an
anchored finite alternation, matched by bs4 against each class token
(class is multi-valued) or against the whole id value. -/

def isArticleTag (n : Node) : Bool := tagIs n "article"

/-- Probe 2: div with a class token in {post, inner-content, main_content}. -/
def probeClassSet (n : Node) : Bool :=
  tagIs n "div" &&
  (match getAttr n "class" with
   | some v => (splitWS v).any (fun tk => tk = "post" || tk = "inner-content" || tk = "main_content")
   | none => false)

/-- Probe 3: div with a class token equal to "content". -/
def probeClassContent (n : Node) : Bool := tagIs n "div" && hasClassTok n "content"

/-- Probe 4: div whose id is "content" or "gist-pjax-container". -/
def probeIdSet (n : Node) : Bool :=
  tagIs n "div" &&
  (match getAttr n "id" with
   | some v => v = "content" || v = "gist-pjax-container"
   | none => false)

/-- The or-chain of line 134-137: first probe with a hit wins. -/
def locateContentRoot (l : List Node) : Option Node :=
  match findF isArticleTag l with
  | some n => some n
  | none =>
      match findF probeClassSet l with
      | some n => some n
      | none =>
          match findF probeClassContent l with
          | some n => some n
          | none => findF probeIdSet l

/-- cdiv.name = 'body': the found candidate is retagged as the new body. -/
def retagBody : Node → Node
  | .elem _ a cs => .elem "body" a cs
  | n => n

/-- Selection with graceful fallback (lines 138-144): a found candidate is
promoted to be the document body; otherwise the whole document is used. -/
def contentTree (l : List Node) : List Node :=
  match locateContentRoot l with
  | some n => [retagBody n]
  | none => l

/-! ### URL resolution (source lines 245-247 and 262-263)

getdoc.py treats a reference as already absolute iff it contains the
substring "://", and otherwise resolves it with urllib.parse.urljoin.
urljoin is stdlib, not repository code; the model below follows the
standard relative-reference semantics the spec names (scheme-relative,
absolute-path, fragment-only and path-relative forms) for an absolute
http-like base.  A URI is absolute iff it starts with a valid scheme
(RFC 3986: ALPHA *(ALPHA / DIGIT / "+" / "-" / ".") followed by ":"). -/

def isSchemeChar (c : Char) : Bool :=
  c.isAlpha || c.isDigit || c = '+' || c = '-' || c = '.'

/-- The maximal colon-free head of the string. -/
def schemeOf (s : List Char) : List Char := s.takeWhile (fun c => !(c = ':'))

/-- Does s start with a valid scheme followed by a colon? -/
def hasScheme (s : List Char) : Bool :=
  let pre := schemeOf s
  !pre.isEmpty && decide (pre.length < s.length) &&
  (match pre with
   | c :: _ => c.isAlpha
   | [] => false) &&
  pre.all isSchemeChar

/-- Standard notion: a URI reference is absolute iff it carries a scheme. -/
def isAbsUrl (s : String) : Bool := hasScheme s.data

/-- Standard notion: a relative reference is one without a scheme. -/
def isRelRef (s : String) : Bool := !hasScheme s.data

/-- scheme://authority of the base. -/
def originOf (s : List Char) : List Char :=
  let sch := schemeOf s
  let rest := s.drop (sch.length + 1)
  if leadsWith ['/', '/'] rest then
    sch ++ [':', '/', '/'] ++ (rest.drop 2).takeWhile (fun c => !(c = '/'))
  else sch ++ [':']

/-- The base up to (and including) its last slash. -/
def dirOf (s : List Char) : List Char :=
  ((s.reverse.dropWhile (fun c => !(c = '/'))).reverse)

/-- The base with any fragment removed. -/
def stripFrag (s : List Char) : List Char := s.takeWhile (fun c => !(c = '#'))

/-- Modelled from the spec: urllib.parse.urljoin (external retrieval-side
stdlib collaborator, not part of this repository), restricted to the
reference forms named in the spec. -/
def urljoinL (base rel : List Char) : List Char :=
  if rel.isEmpty then base
  else if hasScheme rel then rel
  else if leadsWith ['/', '/'] rel then schemeOf base ++ [':'] ++ rel
  else if leadsWith ['/'] rel then originOf base ++ rel
  else if leadsWith ['#'] rel then stripFrag base ++ rel
  else dirOf base ++ rel

def urljoin (base rel : String) : String := String.mk (urljoinL base.data rel.data)

/-- A usable document-origin URL: absolute, with a slash after the scheme
(e.g. any http:// or https:// URL). -/
def absHttpBase (s : String) : Bool :=
  hasScheme s.data && (s.data.drop ((schemeOf s.data).length + 1)).any (fun c => c = '/')

/-! ### Anchor href absolutization (source lines 245-247)

for tag in obs.find_all('a'): if tag.get('href') and '://' not in
tag['href']: tag['href'] = urljoin(url, tag['href']). -/

/-- The per-value rewrite of lines 246-247. -/
def resolveHref (base v : String) : String :=
  if !(v = "") && !(sContains v "://") then urljoin base v else v

def fixAttrs (base : String) (a : List (String × String)) : List (String × String) :=
  a.map (fun p => if p.1 = "href" then (p.1, resolveHref base p.2) else p)

mutual
def fixHrefsN (base : String) : Node → Node
  | .elem t a cs => .elem t (if t = "a" then fixAttrs base a else a) (fixHrefsF base cs)
  | n => n
def fixHrefsF (base : String) : List Node → List Node
  | [] => []
  | c :: cs => fixHrefsN base c :: fixHrefsF base cs
end

mutual
/-- The href values of all anchor Elements, in document order. -/
def aHrefsN : Node → List String
  | .elem t a cs =>
      (if t = "a" then
        match lookupAttr "href" a with
        | some v => [v]
        | none => []
       else []) ++ aHrefsF cs
  | _ => []
def aHrefsF : List Node → List String
  | [] => []
  | c :: cs => aHrefsN c ++ aHrefsF cs
end

/-! ### Image localization (source lines 257-291)

for i, t in enumerate(obs.find_all('img')): the index runs over the
pre-order snapshot of all img elements.  An element with no (or falsy)
src is extracted; otherwise the reference is resolved, the bytes fetched
(external collaborator, modelled as a function), transparently gunzipped
on a gzip magic, and the extension taken from the URL when known, else
sniffed from the PNG / GIF / JPEG magics in that order; an unknown format
discards the element.  Bytes are modelled as lists of byte values. -/

def pngMagic : List Nat := [0x89, 0x50, 0x4E, 0x47]
def gifMagic : List Nat := [0x47, 0x49, 0x46]
def jpgMagic : List Nat := [0xFF, 0xD8, 0xFF]
def gzMagic : List Nat := [0x1F, 0x8B]

/-- src.rsplit('.', 1)[-1]: the part after the last dot (the whole string
when there is no dot). -/
def extOf (s : String) : String :=
  String.mk ((s.data.reverse.takeWhile (fun c => !(c = '.'))).reverse)

def lowerStr (s : String) : String := String.mk (s.data.map Char.toLower)

def knownImgExt (e : String) : Bool := e = "jpg" || e = "jpeg" || e = "png" || e = "gif"

/-- Magic-byte sniffing, PNG then GIF then JPEG (source lines 271-277). -/
def sniffExt (bs : List Nat) : Option String :=
  if leadsWith pngMagic bs then some "png"
  else if leadsWith gifMagic bs then some "gif"
  else if leadsWith jpgMagic bs then some "jpg"
  else none

/-- '%03d' zero padding. -/
def pad3 (n : Nat) : String :=
  (if n < 10 then "00" else if n < 100 then "0" else "") ++ Nat.repr n

/-- 'image%03d.%s' % (i, ext). -/
def imgFilename (i : Nat) (ext : String) : String := "image" ++ pad3 i ++ "." ++ ext

/-- The local filename assigned to the i-th img element, or none when the
element is discarded.  fetch models the download collaborator (bytes of a
URL), gunzip the gzip decompressor. -/
def imgDecision (fetch : String → List Nat) (gunzip : List Nat → List Nat)
    (base : String) (i : Nat) (n : Node) : Option String :=
  match getAttr n "src" with
  | none => none
  | some src0 =>
      if src0 = "" then none
      else
        let src := if sContains src0 "://" then src0 else urljoin base src0
        let raw := fetch src
        let dat := if leadsWith gzMagic raw then gunzip raw else raw
        let ext := lowerStr (extOf src)
        if knownImgExt ext then some (imgFilename i ext)
        else
          match sniffExt dat with
          | some e => some (imgFilename i e)
          | none => none

/-- The img elements of the document, in document order. -/
def collectImgs (l : List Node) : List Node := findAllF (fun n => tagIs n "img") l

/-- The per-image localization outcome list: position i holds the local
filename given to the i-th img element, or none when it is discarded. -/
def imgNames (fetch : String → List Nat) (gunzip : List Nat → List Nat)
    (base : String) (l : List Node) : List (Option String) :=
  (collectImgs l).enum.map (fun p => imgDecision fetch gunzip base p.1 p.2)

/-! ### MHT part ordering (source line 312)

sorted(files, key=lambda x: (0,0) if 'index.html' in x else (1, x)). -/

def mhtHtmlish (f : String) : Bool := sContains f "index.html"

/-- The key comparison induced by the sort key of line 312. -/
def mhtLE (a b : String) : Bool :=
  if mhtHtmlish a then true
  else if mhtHtmlish b then false
  else decide (a ≤ b)

def insSorted (x : String) : List String → List String
  | [] => [x]
  | y :: ys => if mhtLE y x then y :: insSorted x ys else x :: y :: ys

/-- sorted(files, key=...): a sort of the file list under the MHT key. -/
def mhtSortFiles (files : List String) : List String :=
  files.foldl (fun acc x => insSorted x acc) []

/-! ### StackOverflow-style Q&A restructuring (source lines 154-197)

The loops address live nodes; the model addresses them by their paths
(child-index lists) into the current tree, which is what object identity
amounts to here: find_parent walks the path's proper prefixes. -/

mutual
/-- Paths (relative to a forest, first index = position of the top-level
node) of every node satisfying p, in document order. -/
def findPathsN (p : Node → Bool) : Node → List (List Nat)
  | n@(.elem _ _ cs) => (if p n then [[]] else []) ++ findPathsF p 0 cs
  | n => if p n then [[]] else []
def findPathsF (p : Node → Bool) : Nat → List Node → List (List Nat)
  | _, [] => []
  | i, c :: cs => (findPathsN p c).map (fun q => i :: q) ++ findPathsF p (i + 1) cs
end

/-- The node of a tree at a path. -/
def nodeAtN (n : Node) : List Nat → Option Node
  | [] => some n
  | i :: q =>
      match n with
      | .elem _ _ cs =>
          match cs.get? i with
          | some c => nodeAtN c q
          | none => none
      | _ => none

/-- The node of a forest at a (nonempty) path. -/
def nodeAtF (l : List Node) : List Nat → Option Node
  | [] => none
  | i :: q =>
      match l.get? i with
      | some c => nodeAtN c q
      | none => none

/-- The proper ancestors of a path, nearest first. -/
def ancPaths (p : List Nat) : List (List Nat) := ((List.inits p).dropLast).reverse

/-- vc.find_parent('table'): the nearest ancestor that is a table. -/
def parentTablePath (l : List Node) (p : List Nat) : Option (List Nat) :=
  (ancPaths p).find? (fun q =>
    match nodeAtF l q with
    | some n => tagIs n "table"
    | none => false)

/-- td.votecell - the Q&A vote-cell marker. -/
def isVotecell (n : Node) : Bool := tagIs n "td" && hasClassTok n "votecell"

def isPostText (n : Node) : Bool := tagIs n "div" && hasClassTok n "post-text"

def isCommentBody (n : Node) : Bool := tagIs n "div" && hasClassTok n "comment-body"

def isAnswerCell (n : Node) : Bool := hasClassTok n "answercell"

/-- 'h%s' % (int(e.name[1]) + 2) for h1..h5 (source lines 175-176). -/
def bumpTag (t : String) : String :=
  if t = "h1" then "h3"
  else if t = "h2" then "h4"
  else if t = "h3" then "h5"
  else if t = "h4" then "h6"
  else if t = "h5" then "h7"
  else t

mutual
def bumpN : Node → Node
  | .elem t a cs => .elem (bumpTag t) a (bumpF cs)
  | n => n
def bumpF : List Node → List Node
  | [] => []
  | c :: cs => bumpN c :: bumpF cs
end

/-- Renumber the headings strictly inside a node (td.find_all of line 175
searches descendants only). -/
def bumpInside : Node → Node
  | .elem t a cs => .elem t a (bumpF cs)
  | n => n

/-- e.name = 'p' (source line 197). -/
def renameTo (t : String) : Node → Node
  | .elem _ a cs => .elem t a cs
  | n => n

/-- One inner-loop iteration of lines 173-197 for one vote-cell of the
table vt: locate the cell's parent, renumber its headings, pick the
post-text (else comment-body) blocks, emit the synthetic heading and the
(unwrapped or retagged) blocks.  State: (answer counter, comment flag,
body built so far). -/
def processInnerTd (vt : Node) : Nat × Bool × List Node → List Nat → Nat × Bool × List Node
  | (ansid, comment, acc), q =>
      match (if q.dropLast.isEmpty then some vt else nodeAtF (childrenOf vt) q.dropLast) with
      | none => (ansid, comment, acc)
      | some td0 =>
          let td1 := bumpInside td0
          let ts := findAllF isPostText (childrenOf td1)
          if ts.isEmpty then
            let ts2 := findAllF isCommentBody (childrenOf td1)
            if ts2.isEmpty then (ansid, comment, acc)
            else
              (ansid, true,
               acc ++ [Node.elem "h4" [] [Node.text "Comments"]] ++ ts2.map (renameTo "p"))
          else
            if (findF isAnswerCell (childrenOf vt)).isSome then
              (ansid + 1, comment,
               acc ++ [Node.elem "h2" [] [Node.text ("Answer " ++ Nat.repr (ansid + 1))]] ++
                 (if comment then ts.map (renameTo "p") else ts.flatMap childrenOf))
            else
              (ansid, comment,
               acc ++ (if comment then ts.map (renameTo "p") else ts.flatMap childrenOf))

/-- One outer-loop iteration of lines 170-197 for one vote-cell of the
document: find its enclosing table and run the inner loop over that
table's vote-cells.  The comment flag resets per table. -/
def processVC (obs : List Node) : Nat × List Node → List Nat → Nat × List Node
  | (ansid, acc), vcPath =>
      match parentTablePath obs vcPath with
      | none => (ansid, acc)
      | some tp =>
          match nodeAtF obs tp with
          | none => (ansid, acc)
          | some vt =>
              match (findPathsF isVotecell 0 (childrenOf vt)).foldl
                  (processInnerTd vt) (ansid, false, acc) with
              | (ansid2, _, acc2) => (ansid2, acc2)

/-- The removals of lines 157-164 that precede the body rebuild. -/
def soPrep (obs : List Node) : List Node :=
  let o1 := rmF (nodeMatches (some ["td"]) "class" (.exact "vt")) obs
  let o2 := rm_by_attr o1 (some ["table"]) "class" [.exact "fw"]
  let o3 := rm_by_attr o2 (some ["td"]) "class" [.exact "comment-score"]
  let o4 := rm_by_attr o3 (some ["div"]) "class" [.exact "post-taglist", .exact "answers-subheader"]
  let o5 := rm_by_attr o4 (some ["div"]) "id"
    [.tester (fun s => s = "tabs" || (sLeads s "comments-link-" && decide (14 < s.length)))]
  let o6 := rm_by_attr o5 (some ["a"]) "class" [.exact "btn-outlined"]
  let o7 := rm_by_attr o6 (some ["a"]) "title" [.exact "feed of this question and its answers"]
  o7

/-- The trigger of line 154: a td.votecell exists. -/
def soTrigger (obs : List Node) : Bool := (findF isVotecell obs).isSome

/-- obs.body.h1: the first h1 below the first body element. -/
def soTitle (obs : List Node) : Option Node :=
  match findF (fun n => tagIs n "body") obs with
  | some b => findF (fun n => tagIs n "h1") (childrenOf b)
  | none => none

/-- Lines 165-197 after the preparatory removals: keep the body's first
h1, then walk all vote-cells in document order, appending each table's
content; returns (final answer counter, rebuilt body children). -/
def soRebuild (obs : List Node) : Nat × List Node :=
  (findPathsF isVotecell 0 obs).foldl (processVC obs) (0, (soTitle obs).toList)

/-- The rebuilt body children produced by the whole StackOverflow branch. -/
def soNewBody (obs : List Node) : List Node := (soRebuild (soPrep obs)).2

/-! ### Heading observations used by the Q&A-restructuring statement -/

def tagOf : Node → String
  | .elem t _ _ => t
  | _ => ""

def isHeadingB (n : Node) : Bool :=
  tagIs n "h1" || tagIs n "h2" || tagIs n "h3" ||
  tagIs n "h4" || tagIs n "h5" || tagIs n "h6"

/-- (tag, rendered text) of every heading element, in document order. -/
def headingTexts (l : List Node) : List (String × String) :=
  (findAllF isHeadingB l).map (fun n => (tagOf n, String.join (textsN n)))

/-- How many headings of the document render exactly the text s. -/
def countHeadingText (l : List Node) (s : String) : Nat :=
  (headingTexts l).countP (fun pr => pr.2 = s)

/-! ### Concrete documents used to instantiate the theorems -/

/-- A Q&A vote cell (score widget inside). -/
def soVoteTd : Node :=
  .elem "td" [("class", "votecell")] [.elem "div" [("class", "vote")] [.text "42"]]

/-- A question table: one vote cell, one post cell with a post-text block. -/
def soQTable (s : String) : Node :=
  .elem "table" []
    [.elem "tr" []
      [soVoteTd,
       .elem "td" [("class", "postcell")]
         [.elem "div" [("class", "post-text")] [.elem "p" [] [.text s]]]]]

/-- An answer table: one vote cell, one answer cell with a post-text block. -/
def soATable (s : String) : Node :=
  .elem "table" []
    [.elem "tr" []
      [soVoteTd,
       .elem "td" [("class", "answercell")]
         [.elem "div" [("class", "post-text")] [.elem "p" [] [.text s]]]]]

/-- The C1 document family: a title heading, one question table and two
answer tables. -/
def soFixture (title q a1 a2 : String) : List Node :=
  [.elem "html" []
    [.elem "head" [] [.elem "title" [] [.text title]],
     .elem "body" []
       [.elem "h1" [] [.text title],
        soQTable q, soATable a1, soATable a2]]]

/-- A document holding both an article element and a content-class div. -/
def wLocDoc : List Node :=
  [.elem "html" []
    [.elem "body" []
      [.elem "article" [] [.text "A"],
       .elem "div" [("class", "content")] [.text "B"]]]]

def wPruneDoc : List Node :=
  [.elem "body" [] [.elem "div" [] [.elem "span" [] []], .elem "p" [] [.text "x"]]]

def wUnwrapDoc : List Node :=
  [.elem "body" [] [.elem "div" [] [.elem "p" [] [.text "x"]]]]

def wRmDoc : List Node :=
  [.elem "div" [("class", "keep")] [.text "x"]]

def wAttrDoc : List Node :=
  [.elem "p" [("href", "x"), ("id", "z")] []]

def wHrefDoc : List Node :=
  [.elem "a" [("href", "c.html")] [.text "t"]]

def wHrefCexDoc : List Node :=
  [.elem "a" [("href", "a/b://c")] [.text "t"]]

def wFetch : String → List Nat :=
  fun s => if s = "http://img.example/three" then [0x89, 0x50, 0x4E, 0x47, 1, 2]
           else [0xFF, 0xD8, 0xFF, 0]

def wImgsDoc : List Node :=
  [.elem "body" []
    [.elem "img" [("src", "http://img.example/a.jpg")] [],
     .elem "img" [("src", "http://img.example/b.png")] [],
     .elem "img" [("src", "http://img.example/three")] []]]

def wImgsDoc2 : List Node :=
  [.elem "body" []
    [.elem "img" [("alt", "decorative")] [],
     .elem "img" [("src", "http://img.example/b.png")] []]]

def wFiles : List String := ["b.png", "a/index.html", "a.gif"]

/-! ## Theorems -/

/-- Nested induction over Node: the node half. -/
theorem nodeRecAux {P : Node → Prop} {Q : List Node → Prop}
    (he : ∀ t a cs, Q cs → P (.elem t a cs))
    (ht : ∀ s, P (.text s))
    (hc : ∀ s, P (.comment s))
    (hn : Q [])
    (hco : ∀ n l, P n → Q l → Q (n :: l)) : ∀ n, P n :=
  fun n => Node.rec he ht hc hn hco n

/-- Nested induction over Node: the forest half. -/
theorem forestRecAux {P : Node → Prop} {Q : List Node → Prop}
    (he : ∀ t a cs, Q cs → P (.elem t a cs))
    (ht : ∀ s, P (.text s))
    (hc : ∀ s, P (.comment s))
    (hn : Q [])
    (hco : ∀ n l, P n → Q l → Q (n :: l)) : ∀ l, Q l := by
  intro l
  induction l with
  | nil => exact hn
  | cons n l ih => exact hco n l (nodeRecAux he ht hc hn hco n) ih

/-- A node matching p contributes at least itself to the match count. -/
theorem cntN_pos_of_match (p : Node → Bool) (n : Node) (h : p n = true) : 1 ≤ cntN p n := by
  cases n with
  | elem t a cs => simp [cntN, h]
  | text s => simp [cntN, h]
  | comment s => simp [cntN, h]

/-- Zero matches in a subtree/forest means the removal pass leaves it
untouched. -/
theorem rm_of_cnt_zero (p : Node → Bool) :
    (∀ n : Node, cntN p n = 0 → rmN p n = n) ∧
    (∀ l : List Node, cntF p l = 0 → rmF p l = l) := by
  constructor
  · exact nodeRecAux (P := fun n => cntN p n = 0 → rmN p n = n)
      (Q := fun l => cntF p l = 0 → rmF p l = l)
      (fun t a cs ih h => by
        rw [cntN] at h
        rw [rmN, ih (by omega)])
      (fun s _ => rfl)
      (fun s _ => rfl)
      (fun _ => rfl)
      (fun n l ihn ihl h => by
        rw [cntF] at h
        have hpn : p n = false := by
          cases hp : p n with
          | false => rfl
          | true => have := cntN_pos_of_match p n hp; omega
        rw [rmF, hpn]
        simp only [Bool.false_eq_true, if_false]
        rw [ihn (by omega), ihl (by omega)])
  · exact forestRecAux (P := fun n => cntN p n = 0 → rmN p n = n)
      (Q := fun l => cntF p l = 0 → rmF p l = l)
      (fun t a cs ih h => by
        rw [cntN] at h
        rw [rmN, ih (by omega)])
      (fun s _ => rfl)
      (fun s _ => rfl)
      (fun _ => rfl)
      (fun n l ihn ihl h => by
        rw [cntF] at h
        have hpn : p n = false := by
          cases hp : p n with
          | false => rfl
          | true => have := cntN_pos_of_match p n hp; omega
        rw [rmF, hpn]
        simp only [Bool.false_eq_true, if_false]
        rw [ihn (by omega), ihl (by omega)])

/-- C9: a removal rule whose tag/attribute/value combination matches zero
nodes is a silent no-op: the (total, hence never-throwing) function
returns the tree unchanged, and this holds for each value of a
multi-value set independently. -/
theorem rm_by_attr_noop_C9 (tagF : Option (List String)) (attr : String)
    (m : AMatch) (vals : List AMatch) (l : List Node) :
    ((∀ v ∈ vals, cntF (nodeMatches tagF attr v) l = 0) → rm_by_attr l tagF attr vals = l) ∧
    (cntF (nodeMatches tagF attr m) l = 0 →
      rm_by_attr l tagF attr (m :: vals) = rm_by_attr l tagF attr vals) := by
  constructor
  · intro h
    induction vals with
    | nil => rfl
    | cons v vs ih =>
        have hv := h v (List.mem_cons_self v vs)
        have hstep : rmF (nodeMatches tagF attr v) l = l :=
          (rm_of_cnt_zero (nodeMatches tagF attr v)).2 l hv
        show List.foldl _ (rmF (nodeMatches tagF attr v) l) vs = l
        rw [hstep]
        exact ih (fun w hw => h w (List.mem_cons_of_mem v hw))
  · intro h
    have hstep : rmF (nodeMatches tagF attr m) l = l :=
      (rm_of_cnt_zero (nodeMatches tagF attr m)).2 l h
    show List.foldl _ (rmF (nodeMatches tagF attr m) l) vals = rm_by_attr l tagF attr vals
    rw [hstep]
    rfl

/-- C9 instantiated: removing div.zap from a document with no such node
leaves it unchanged. -/
theorem rm_by_attr_noop_C9_witness :
    rm_by_attr wRmDoc (some ["div"]) "class" [AMatch.exact "zap"] = wRmDoc :=
  (rm_by_attr_noop_C9 (some ["div"]) "class" (AMatch.exact "zap") [AMatch.exact "zap"] wRmDoc).1
    (fun v hv => by
      rw [List.mem_singleton] at hv
      subst hv
      rfl)

/-- Every node has positive size. -/
theorem sizeN_pos (n : Node) : 1 ≤ sizeN n := by
  cases n with
  | elem t a cs => simp [sizeN]
  | text s => simp [sizeN]
  | comment s => simp [sizeN]

/-- A removal pass never grows the tree. -/
theorem size_rm_le (p : Node → Bool) :
    (∀ n : Node, sizeN (rmN p n) ≤ sizeN n) ∧
    (∀ l : List Node, sizeF (rmF p l) ≤ sizeF l) := by
  have hco : ∀ n l, sizeN (rmN p n) ≤ sizeN n → sizeF (rmF p l) ≤ sizeF l →
      sizeF (rmF p (n :: l)) ≤ sizeF (n :: l) := by
    intro n l ihn ihl
    rw [rmF]
    cases hp : p n with
    | true =>
        simp only [if_true]
        have := sizeN_pos n
        rw [sizeF]
        omega
    | false =>
        simp only [Bool.false_eq_true, if_false]
        rw [sizeF, sizeF]
        omega
  have he : ∀ t a cs, sizeF (rmF p cs) ≤ sizeF cs →
      sizeN (rmN p (.elem t a cs)) ≤ sizeN (.elem t a cs) := by
    intro t a cs ih
    rw [rmN, sizeN, sizeN]
    omega
  constructor
  · exact nodeRecAux (P := fun n => sizeN (rmN p n) ≤ sizeN n)
      (Q := fun l => sizeF (rmF p l) ≤ sizeF l)
      he (fun _ => le_refl _) (fun _ => le_refl _) (le_refl _) hco
  · exact forestRecAux (P := fun n => sizeN (rmN p n) ≤ sizeN n)
      (Q := fun l => sizeF (rmF p l) ≤ sizeF l)
      he (fun _ => le_refl _) (fun _ => le_refl _) (le_refl _) hco

/-- A removal pass that preserves the size removed nothing. -/
theorem rm_of_size_eq (p : Node → Bool) :
    (∀ n : Node, sizeN (rmN p n) = sizeN n → rmN p n = n) ∧
    (∀ l : List Node, sizeF (rmF p l) = sizeF l → rmF p l = l) := by
  have he : ∀ t a cs, (sizeF (rmF p cs) = sizeF cs → rmF p cs = cs) →
      sizeN (rmN p (.elem t a cs)) = sizeN (.elem t a cs) → rmN p (.elem t a cs) = .elem t a cs := by
    intro t a cs ih h
    rw [rmN, sizeN, sizeN] at h
    rw [rmN, ih (by omega)]
  have hco : ∀ n l, (sizeN (rmN p n) = sizeN n → rmN p n = n) →
      (sizeF (rmF p l) = sizeF l → rmF p l = l) →
      sizeF (rmF p (n :: l)) = sizeF (n :: l) → rmF p (n :: l) = n :: l := by
    intro n l ihn ihl h
    rw [rmF] at h ⊢
    rcases Bool.eq_false_or_eq_true (p n) with hp | hp
    · rw [hp] at h
      simp only [if_true] at h
      have h1 := (size_rm_le p).2 l
      have h2 := sizeN_pos n
      rw [sizeF] at h
      exfalso
      omega
    · rw [hp] at h ⊢
      simp only [Bool.false_eq_true, if_false] at h ⊢
      rw [sizeF, sizeF] at h
      have h1 := (size_rm_le p).1 n
      have h2 := (size_rm_le p).2 l
      rw [ihn (by omega), ihl (by omega)]
  constructor
  · exact nodeRecAux (P := fun n => sizeN (rmN p n) = sizeN n → rmN p n = n)
      (Q := fun l => sizeF (rmF p l) = sizeF l → rmF p l = l)
      he (fun _ _ => rfl) (fun _ _ => rfl) (fun _ => rfl) hco
  · exact forestRecAux (P := fun n => sizeN (rmN p n) = sizeN n → rmN p n = n)
      (Q := fun l => sizeF (rmF p l) = sizeF l → rmF p l = l)
      he (fun _ _ => rfl) (fun _ _ => rfl) (fun _ => rfl) hco

/-- The structural equality test is reflexive. -/
theorem beq_refl :
    (∀ n : Node, beqN n n = true) ∧ (∀ l : List Node, beqF l l = true) := by
  have he : ∀ t a cs, beqF cs cs = true → beqN (.elem t a cs) (.elem t a cs) = true := by
    intro t a cs ih
    rw [beqN]
    simp [ih]
  have hco : ∀ n l, beqN n n = true → beqF l l = true → beqF (n :: l) (n :: l) = true := by
    intro n l ihn ihl
    rw [beqF, ihn, ihl]
    rfl
  constructor
  · exact nodeRecAux (P := fun n => beqN n n = true) (Q := fun l => beqF l l = true)
      he (fun s => by simp [beqN]) (fun s => by simp [beqN]) rfl hco
  · exact forestRecAux (P := fun n => beqN n n = true) (Q := fun l => beqF l l = true)
      he (fun s => by simp [beqN]) (fun s => by simp [beqN]) rfl hco

/-- The structural equality test is sound. -/
theorem beq_sound :
    (∀ n m : Node, beqN n m = true → n = m) ∧
    (∀ l l2 : List Node, beqF l l2 = true → l = l2) := by
  have he : ∀ t a cs, (∀ l2, beqF cs l2 = true → cs = l2) →
      ∀ m, beqN (.elem t a cs) m = true → .elem t a cs = m := by
    intro t a cs ih m h
    cases m with
    | elem t2 a2 cs2 =>
        rw [beqN] at h
        simp only [Bool.and_eq_true, decide_eq_true_eq] at h
        rw [h.1.1, h.1.2, ih cs2 h.2]
    | text s2 => simp [beqN] at h
    | comment s2 => simp [beqN] at h
  have htx : ∀ s, ∀ m, beqN (.text s) m = true → Node.text s = m := by
    intro s m h
    cases m with
    | text s2 =>
        rw [beqN] at h
        simp only [decide_eq_true_eq] at h
        rw [h]
    | elem t2 a2 cs2 => simp [beqN] at h
    | comment s2 => simp [beqN] at h
  have hcm : ∀ s, ∀ m, beqN (.comment s) m = true → Node.comment s = m := by
    intro s m h
    cases m with
    | comment s2 =>
        rw [beqN] at h
        simp only [decide_eq_true_eq] at h
        rw [h]
    | elem t2 a2 cs2 => simp [beqN] at h
    | text s2 => simp [beqN] at h
  have hni : ∀ l2 : List Node, beqF [] l2 = true → [] = l2 := by
    intro l2 h
    cases l2 with
    | nil => rfl
    | cons m l3 => simp [beqF] at h
  have hco : ∀ n l, (∀ m, beqN n m = true → n = m) → (∀ l2, beqF l l2 = true → l = l2) →
      ∀ l2, beqF (n :: l) l2 = true → n :: l = l2 := by
    intro n l ihn ihl l2 h
    cases l2 with
    | nil => simp [beqF] at h
    | cons m l3 =>
        rw [beqF] at h
        simp only [Bool.and_eq_true] at h
        rw [ihn m h.1, ihl l3 h.2]
  constructor
  · exact nodeRecAux (P := fun n => ∀ m, beqN n m = true → n = m)
      (Q := fun l => ∀ l2, beqF l l2 = true → l = l2)
      he htx hcm hni hco
  · exact forestRecAux (P := fun n => ∀ m, beqN n m = true → n = m)
      (Q := fun l => ∀ l2, beqF l l2 = true → l = l2)
      he htx hcm hni hco

/-- With enough fuel the loop reaches a fixed point of the pass. -/
theorem pruneLoop_fix : ∀ (fuel : Nat) (l : List Node), sizeF l ≤ fuel →
    prunePassF (pruneLoop fuel l) = pruneLoop fuel l := by
  intro fuel
  induction fuel with
  | zero =>
      intro l hl
      have hnil : l = [] := by
        cases l with
        | nil => rfl
        | cons n l2 =>
            exfalso
            have := sizeN_pos n
            rw [sizeF] at hl
            omega
      subst hnil
      rfl
  | succ fuel ih =>
      intro l hl
      rw [pruneLoop]
      cases hb : beqF (prunePassF l) l with
      | true =>
          simp only [if_true]
          exact (beq_sound.2 _ _ hb)
      | false =>
          simp only [Bool.false_eq_true, if_false]
          apply ih
          have hne : prunePassF l ≠ l := by
            intro he
            rw [he] at hb
            rw [beq_refl.2 l] at hb
            cases hb
          have hle : sizeF (prunePassF l) ≤ sizeF l := (size_rm_le removableN).2 l
          have hneq : sizeF (prunePassF l) ≠ sizeF l := by
            intro hs
            exact hne ((rm_of_size_eq removableN).2 l hs)
          omega

/-- The loop is the identity on fixed points of the pass. -/
theorem pruneLoop_id (fuel : Nat) (l : List Node) (h : prunePassF l = l) :
    pruneLoop fuel l = l := by
  cases fuel with
  | zero => rfl
  | succ fuel =>
      rw [pruneLoop]
      have hb : beqF (prunePassF l) l = true := by rw [h]; exact beq_refl.2 l
      rw [hb]
      simp

/-- C4: the prune-to-fixed-point pass is idempotent, and its result is a
fixed point of the single-pass removal. -/
theorem pruneEmpty_idempotent_C4 (l : List Node) :
    pruneEmpty (pruneEmpty l) = pruneEmpty l ∧
    prunePassF (pruneEmpty l) = pruneEmpty l := by
  have hfix : prunePassF (pruneEmpty l) = pruneEmpty l :=
    pruneLoop_fix (sizeF l) l (le_refl _)
  exact ⟨pruneLoop_id _ _ hfix, hfix⟩

/-- C4 instantiated on a small document. -/
theorem pruneEmpty_idempotent_C4_witness :
    pruneEmpty (pruneEmpty wPruneDoc) = pruneEmpty wPruneDoc :=
  (pruneEmpty_idempotent_C4 wPruneDoc).1

/-- Text contents of a concatenation of forests. -/
theorem textsF_append (l1 l2 : List Node) :
    textsF (l1 ++ l2) = textsF l1 ++ textsF l2 := by
  induction l1 with
  | nil => rfl
  | cons c cs ih =>
      rw [List.cons_append, textsF, textsF, ih, List.append_assoc]

/-- C8: the single-child div unwrapping pass preserves the document's
Text-node contents, in document order; only element nesting changes. -/
theorem unwrap_preserves_text_C8 :
    (∀ l : List Node, textsF (unwrapF l) = textsF l) ∧
    (∀ n : Node, textsF (unwrapN n) = textsN n) := by
  have he : ∀ t a cs, textsF (unwrapF cs) = textsF cs →
      textsF (unwrapN (.elem t a cs)) = textsN (.elem t a cs) := by
    intro t a cs ih
    cases cs with
    | nil => simp [unwrapN, textsN, textsF]
    | cons c cs2 =>
        cases cs2 with
        | nil =>
            rcases Bool.eq_false_or_eq_true (t = "div" && isElemB c) with hd | hd
            all_goals
              simp only [unwrapF, List.append_nil] at ih
              simp [unwrapN, unwrapF, hd, textsN, textsF, textsF_append, ih]
        | cons c2 cs3 => simp [unwrapN, textsN, textsF, textsF_append, ih]
  have ht : ∀ s, textsF (unwrapN (.text s)) = textsN (.text s) := by
    intro s
    simp [unwrapN, textsN, textsF]
  have hc : ∀ s, textsF (unwrapN (.comment s)) = textsN (.comment s) := by
    intro s
    simp [unwrapN, textsN, textsF]
  have hco : ∀ n l, textsF (unwrapN n) = textsN n → textsF (unwrapF l) = textsF l →
      textsF (unwrapF (n :: l)) = textsF (n :: l) := by
    intro n l ihn ihl
    rw [unwrapF, textsF_append, ihn, ihl, textsF]
  constructor
  · exact forestRecAux (P := fun n => textsF (unwrapN n) = textsN n)
      (Q := fun l => textsF (unwrapF l) = textsF l)
      he ht hc rfl hco
  · exact nodeRecAux (P := fun n => textsF (unwrapN n) = textsN n)
      (Q := fun l => textsF (unwrapF l) = textsF l)
      he ht hc rfl hco

/-- C8 instantiated on a small document. -/
theorem unwrap_preserves_text_C8_witness :
    textsF (unwrapF wUnwrapDoc) = textsF wUnwrapDoc :=
  unwrap_preserves_text_C8.1 wUnwrapDoc

/-- C5: with the debug keep-attributes flag unset, after the
attribute-stripping step every attribute key of every Element in the tree
is src, href or alt. -/
theorem attr_allowlist_C5 (l : List Node) (n : Node)
    (hn : n ∈ elemsF (attrStep false l)) (k v : String)
    (hkv : (k, v) ∈ attrsOf n) : k = "src" ∨ k = "href" ∨ k = "alt" := by
  have hstep : attrStep false l = stripAttrsF l := rfl
  rw [hstep] at hn
  have main : ∀ l : List Node,
      ∀ n ∈ elemsF (stripAttrsF l), ∀ k v : String,
        (k, v) ∈ attrsOf n → k = "src" ∨ k = "href" ∨ k = "alt" := by
    have he : ∀ t a cs,
        (∀ n ∈ elemsF (stripAttrsF cs), ∀ k v : String,
          (k, v) ∈ attrsOf n → k = "src" ∨ k = "href" ∨ k = "alt") →
        ∀ n ∈ elemsN (stripAttrsN (.elem t a cs)), ∀ k v : String,
          (k, v) ∈ attrsOf n → k = "src" ∨ k = "href" ∨ k = "alt" := by
      intro t a cs ih n hn k v hkv
      rw [stripAttrsN, elemsN] at hn
      rcases List.mem_cons.mp hn with hh | hh
      · subst hh
        rw [attrsOf] at hkv
        have hall := (List.mem_filter.mp hkv).2
        simp only [allowedKey, Bool.or_eq_true, decide_eq_true_eq] at hall
        tauto
      · exact ih n hh k v hkv
    have ht : ∀ s, ∀ n ∈ elemsN (stripAttrsN (.text s)), ∀ k v : String,
        (k, v) ∈ attrsOf n → k = "src" ∨ k = "href" ∨ k = "alt" := by
      intro s n hn
      simp [stripAttrsN, elemsN] at hn
    have hc : ∀ s, ∀ n ∈ elemsN (stripAttrsN (.comment s)), ∀ k v : String,
        (k, v) ∈ attrsOf n → k = "src" ∨ k = "href" ∨ k = "alt" := by
      intro s n hn
      simp [stripAttrsN, elemsN] at hn
    have hni : ∀ n ∈ elemsF (stripAttrsF ([] : List Node)), ∀ k v : String,
        (k, v) ∈ attrsOf n → k = "src" ∨ k = "href" ∨ k = "alt" := by
      intro n hn
      rw [stripAttrsF, elemsF] at hn
      cases hn
    have hco : ∀ m l,
        (∀ n ∈ elemsN (stripAttrsN m), ∀ k v : String,
          (k, v) ∈ attrsOf n → k = "src" ∨ k = "href" ∨ k = "alt") →
        (∀ n ∈ elemsF (stripAttrsF l), ∀ k v : String,
          (k, v) ∈ attrsOf n → k = "src" ∨ k = "href" ∨ k = "alt") →
        ∀ n ∈ elemsF (stripAttrsF (m :: l)), ∀ k v : String,
          (k, v) ∈ attrsOf n → k = "src" ∨ k = "href" ∨ k = "alt" := by
      intro m l ihm ihl n hn k v hkv
      rw [stripAttrsF, elemsF] at hn
      rcases List.mem_append.mp hn with hh | hh
      · exact ihm n hh k v hkv
      · exact ihl n hh k v hkv
    exact forestRecAux
      (P := fun m => ∀ n ∈ elemsN (stripAttrsN m), ∀ k v : String,
        (k, v) ∈ attrsOf n → k = "src" ∨ k = "href" ∨ k = "alt")
      (Q := fun l => ∀ n ∈ elemsF (stripAttrsF l), ∀ k v : String,
        (k, v) ∈ attrsOf n → k = "src" ∨ k = "href" ∨ k = "alt")
      he ht hc hni hco
  exact main l n hn k v hkv

/-- C5 instantiated: the id attribute is gone, the kept key is allowed. -/
theorem attr_allowlist_C5_witness : "href" = "src" ∨ "href" = "href" ∨ "href" = "alt" :=
  attr_allowlist_C5 wAttrDoc (Node.elem "p" [("href", "x")] [])
    (by simp [attrStep, stripAttrsF, stripAttrsN, wAttrDoc, elemsF, elemsN, allowedKey])
    "href" "x" (by simp [attrsOf])

/-- A successful find returns a node satisfying the predicate. -/
theorem findF_spec (p : Node → Bool) :
    (∀ n m : Node, findN p n = some m → p m = true) ∧
    (∀ (l : List Node) (m : Node), findF p l = some m → p m = true) := by
  have he : ∀ t a cs, (∀ m, findF p cs = some m → p m = true) →
      ∀ m, findN p (.elem t a cs) = some m → p m = true := by
    intro t a cs ih m h
    rw [findN] at h
    rcases Bool.eq_false_or_eq_true (p (.elem t a cs)) with hp | hp
    · rw [hp] at h
      simp only [if_true] at h
      cases h
      exact hp
    · rw [hp] at h
      simp only [Bool.false_eq_true, if_false] at h
      exact ih m h
  have ht : ∀ s, ∀ m, findN p (.text s) = some m → p m = true := by
    intro s m h
    have hd : findN p (.text s) = (if p (.text s) then some (.text s) else none) := rfl
    rw [hd] at h
    rcases Bool.eq_false_or_eq_true (p (.text s)) with hp | hp
    · rw [hp] at h
      simp only [if_true] at h
      cases h
      exact hp
    · rw [hp] at h
      simp only [Bool.false_eq_true, if_false] at h
      cases h
  have hc : ∀ s, ∀ m, findN p (.comment s) = some m → p m = true := by
    intro s m h
    have hd : findN p (.comment s) = (if p (.comment s) then some (.comment s) else none) := rfl
    rw [hd] at h
    rcases Bool.eq_false_or_eq_true (p (.comment s)) with hp | hp
    · rw [hp] at h
      simp only [if_true] at h
      cases h
      exact hp
    · rw [hp] at h
      simp only [Bool.false_eq_true, if_false] at h
      cases h
  have hni : ∀ m : Node, findF p ([] : List Node) = some m → p m = true := by
    intro m h
    cases h
  have hco : ∀ n l, (∀ m, findN p n = some m → p m = true) →
      (∀ m, findF p l = some m → p m = true) →
      ∀ m, findF p (n :: l) = some m → p m = true := by
    intro n l ihn ihl m h
    rw [findF] at h
    cases hf : findN p n with
    | some r =>
        rw [hf] at h
        cases h
        exact ihn m hf
    | none =>
        rw [hf] at h
        exact ihl m h
  exact ⟨nodeRecAux (P := fun n => ∀ m, findN p n = some m → p m = true)
      (Q := fun l => ∀ m, findF p l = some m → p m = true) he ht hc hni hco,
    forestRecAux (P := fun n => ∀ m, findN p n = some m → p m = true)
      (Q := fun l => ∀ m, findF p l = some m → p m = true) he ht hc hni hco⟩

/-- C3: the Candidate Locator's probe order is deterministic: the article
probe wins whenever it matches (in particular in any document that also
has a content-class div), each later probe is used exactly when all
earlier probes miss, and when every probe misses the whole original
document is used unchanged. -/
theorem locator_order_C3 (l : List Node) :
    (∀ n, findF isArticleTag l = some n →
      locateContentRoot l = some n ∧ tagIs n "article" = true) ∧
    (∀ n, findF isArticleTag l = none → findF probeClassSet l = some n →
      locateContentRoot l = some n) ∧
    (∀ n, findF isArticleTag l = none → findF probeClassSet l = none →
      findF probeClassContent l = some n → locateContentRoot l = some n) ∧
    (∀ n, findF isArticleTag l = none → findF probeClassSet l = none →
      findF probeClassContent l = none → findF probeIdSet l = some n →
      locateContentRoot l = some n) ∧
    (findF isArticleTag l = none → findF probeClassSet l = none →
      findF probeClassContent l = none → findF probeIdSet l = none →
      contentTree l = l) := by
  refine ⟨?_, ?_, ?_, ?_, ?_⟩
  · intro n h
    constructor
    · rw [locateContentRoot, h]
    · exact (findF_spec isArticleTag).2 l n h
  · intro n h1 h2
    rw [locateContentRoot, h1, h2]
  · intro n h1 h2 h3
    rw [locateContentRoot, h1, h2, h3]
  · intro n h1 h2 h3 h4
    rw [locateContentRoot, h1, h2, h3, h4]
  · intro h1 h2 h3 h4
    rw [contentTree, locateContentRoot, h1, h2, h3, h4]

/-- C3 instantiated: a document with both an article element and a
content-class div selects the article element. -/
theorem locator_order_C3_witness :
    locateContentRoot wLocDoc = some (Node.elem "article" [] [Node.text "A"]) ∧
    tagIs (Node.elem "article" [] [Node.text "A"]) "article" = true :=
  (locator_order_C3 wLocDoc).1 (Node.elem "article" [] [Node.text "A"]) rfl

/-- Membership in an insertion: the new element or an old one. -/
theorem mem_insSorted (x z : String) (l : List String) (h : z ∈ insSorted x l) :
    z = x ∨ z ∈ l := by
  induction l with
  | nil =>
      rw [insSorted] at h
      exact Or.inl (List.mem_singleton.mp h)
  | cons y ys ih =>
      rw [insSorted] at h
      rcases Bool.eq_false_or_eq_true (mhtLE y x) with hle | hle
      · rw [hle] at h
        simp only [if_true] at h
        rcases List.mem_cons.mp h with h2 | h2
        · exact Or.inr (h2 ▸ List.mem_cons_self y ys)
        · rcases ih h2 with h3 | h3
          · exact Or.inl h3
          · exact Or.inr (List.mem_cons_of_mem y h3)
      · rw [hle] at h
        simp only [Bool.false_eq_true, if_false] at h
        rcases List.mem_cons.mp h with h2 | h2
        · exact Or.inl h2
        · exact Or.inr h2

/-- Insertion produces a permutation of consing. -/
theorem insSorted_perm (x : String) (l : List String) :
    (insSorted x l).Perm (x :: l) := by
  induction l with
  | nil => rw [insSorted]
  | cons y ys ih =>
      rw [insSorted]
      rcases Bool.eq_false_or_eq_true (mhtLE y x) with hle | hle
      · rw [hle]
        simp only [if_true]
        exact ((ih.cons y).trans (List.Perm.swap x y ys))
      · rw [hle]
        simp only [Bool.false_eq_true, if_false]
        exact List.Perm.refl _

/-- Inserting an index-html file into a html-block-led list puts it at the
block boundary. -/
theorem insSorted_html (x : String) (hx : mhtHtmlish x = true) :
    ∀ h r : List String, (∀ y ∈ h, mhtHtmlish y = true) → (∀ y ∈ r, mhtHtmlish y = false) →
      insSorted x (h ++ r) = h ++ x :: r := by
  intro h
  induction h with
  | nil =>
      intro r _ hr
      cases r with
      | nil => rfl
      | cons y ys =>
          rw [List.nil_append, insSorted]
          have hy : mhtHtmlish y = false := hr y (List.mem_cons_self y ys)
          have hle : mhtLE y x = false := by
            rw [mhtLE, hy]
            simp [hx]
          rw [hle]
          simp
  | cons y h2 ih =>
      intro r hh hr
      rw [List.cons_append, insSorted]
      have hy : mhtHtmlish y = true := hh y (List.mem_cons_self y h2)
      have hle : mhtLE y x = true := by rw [mhtLE, hy]; simp
      rw [hle]
      simp only [if_true, List.cons_append]
      rw [ih r (fun z hz => hh z (List.mem_cons_of_mem y hz)) hr]

/-- Inserting a non-html file into a html-block-led list keeps the block. -/
theorem insSorted_nonhtml (x : String) :
    ∀ h r : List String, (∀ y ∈ h, mhtHtmlish y = true) →
      insSorted x (h ++ r) = h ++ insSorted x r := by
  intro h
  induction h with
  | nil => intro r _; rfl
  | cons y h2 ih =>
      intro r hh
      rw [List.cons_append, insSorted]
      have hy : mhtHtmlish y = true := hh y (List.mem_cons_self y h2)
      have hle : mhtLE y x = true := by rw [mhtLE, hy]; simp
      rw [hle]
      simp only [if_true, List.cons_append]
      rw [ih r (fun z hz => hh z (List.mem_cons_of_mem y hz))]

/-- The html-parts-first shape is preserved by every insertion. -/
theorem insSorted_shape (x : String) (acc : List String)
    (hacc : ∃ h r, acc = h ++ r ∧ (∀ y ∈ h, mhtHtmlish y = true) ∧
      (∀ y ∈ r, mhtHtmlish y = false)) :
    ∃ h r, insSorted x acc = h ++ r ∧ (∀ y ∈ h, mhtHtmlish y = true) ∧
      (∀ y ∈ r, mhtHtmlish y = false) := by
  obtain ⟨h, r, heq, hh, hr⟩ := hacc
  subst heq
  rcases Bool.eq_false_or_eq_true (mhtHtmlish x) with hx | hx
  · refine ⟨h ++ [x], r, ?_, ?_, hr⟩
    · rw [insSorted_html x hx h r hh hr]
      simp
    · intro y hy
      rcases List.mem_append.mp hy with h2 | h2
      · exact hh y h2
      · rw [List.mem_singleton.mp h2]
        exact hx
  · refine ⟨h, insSorted x r, ?_, hh, ?_⟩
    · rw [insSorted_nonhtml x h r hh]
    · intro y hy
      rcases mem_insSorted x y r hy with h2 | h2
      · rw [h2]; exact hx
      · exact hr y h2

/-- The fold underlying the MHT sort is a permutation onto the
accumulator. -/
theorem mhtFold_perm (fs : List String) : ∀ acc : List String,
    (fs.foldl (fun acc x => insSorted x acc) acc).Perm (acc ++ fs) := by
  induction fs with
  | nil => intro acc; simp
  | cons x fs2 ih =>
      intro acc
      rw [List.foldl_cons]
      refine (ih (insSorted x acc)).trans ?_
      refine (List.Perm.append_right fs2 (insSorted_perm x acc)).trans ?_
      show (x :: (acc ++ fs2)).Perm (acc ++ x :: fs2)
      exact List.perm_middle.symm

/-- The fold preserves the html-parts-first shape. -/
theorem mhtFold_shape (fs : List String) : ∀ acc : List String,
    (∃ h r, acc = h ++ r ∧ (∀ y ∈ h, mhtHtmlish y = true) ∧
      (∀ y ∈ r, mhtHtmlish y = false)) →
    ∃ h r, fs.foldl (fun acc x => insSorted x acc) acc = h ++ r ∧
      (∀ y ∈ h, mhtHtmlish y = true) ∧ (∀ y ∈ r, mhtHtmlish y = false) := by
  induction fs with
  | nil => intro acc hacc; exact hacc
  | cons x fs2 ih =>
      intro acc hacc
      rw [List.foldl_cons]
      exact ih (insSorted x acc) (insSorted_shape x acc hacc)

/-- C7: for every working-directory file list, in any enumeration order,
the MHT sort emits a permutation of the files in which every part whose
name contains index.html precedes every other part. -/
theorem mht_html_first_C7 (files : List String) :
    (mhtSortFiles files).Perm files ∧
    ∃ h r, mhtSortFiles files = h ++ r ∧ (∀ f ∈ h, mhtHtmlish f = true) ∧
      (∀ f ∈ r, mhtHtmlish f = false) := by
  constructor
  · have := mhtFold_perm files []
    rw [List.nil_append] at this
    exact this
  · exact mhtFold_shape files []
      ⟨[], [], rfl, fun y hy => absurd hy (List.not_mem_nil y),
        fun y hy => absurd hy (List.not_mem_nil y)⟩

/-- C7 instantiated on a concrete out-of-order file list. -/
theorem mht_html_first_C7_witness : (mhtSortFiles wFiles).Perm wFiles :=
  (mht_html_first_C7 wFiles).1

/-- A successful head-pattern test decomposes the list. -/
theorem leadsWith_ex {α : Type} [DecidableEq α] (pat : List α) :
    ∀ l : List α, leadsWith pat l = true → ∃ t, l = pat ++ t := by
  induction pat with
  | nil => intro l _; exact ⟨l, rfl⟩
  | cons p ps ih =>
      intro l h
      cases l with
      | nil => cases h
      | cons c cs =>
          rw [leadsWith] at h
          simp only [Bool.and_eq_true, decide_eq_true_eq] at h
          obtain ⟨t, ht⟩ := ih cs h.2
          exact ⟨t, by rw [h.1, ht, List.cons_append]⟩

/-- takeWhile runs through a block that satisfies the predicate. -/
theorem takeWhile_append_all {α : Type} (p : α → Bool) (xs ys : List α)
    (h : ∀ c ∈ xs, p c = true) :
    (xs ++ ys).takeWhile p = xs ++ ys.takeWhile p := by
  induction xs with
  | nil => rfl
  | cons x xs2 ih =>
      rw [List.cons_append, List.takeWhile_cons, h x (List.mem_cons_self x xs2)]
      simp only [if_true, List.cons_append]
      rw [ih (fun c hc => h c (List.mem_cons_of_mem x hc))]

/-- dropWhile stops exactly at the first failing element. -/
theorem dropWhile_append_stop {α : Type} (p : α → Bool) (l1 l2 : List α)
    (h : ∃ x ∈ l1, p x = false) :
    (l1 ++ l2).dropWhile p = l1.dropWhile p ++ l2 := by
  induction l1 with
  | nil =>
      obtain ⟨x, hx, _⟩ := h
      exact absurd hx (List.not_mem_nil x)
  | cons y ys ih =>
      rw [List.cons_append, List.dropWhile_cons, List.dropWhile_cons]
      rcases Bool.eq_false_or_eq_true (p y) with hy | hy
      · rw [hy]
        simp only [if_true]
        apply ih
        obtain ⟨x, hx, hpx⟩ := h
        rcases List.mem_cons.mp hx with h2 | h2
        · rw [h2] at hpx
          rw [hpx] at hy
          cases hy
        · exact ⟨x, h2, hpx⟩
      · rw [hy]
        simp only [Bool.false_eq_true, if_false, List.cons_append]

/-- The head of a nonempty dropWhile fails the predicate. -/
theorem dropWhile_head_false {α : Type} (p : α → Bool) :
    ∀ (l : List α) (c : α) (t : List α), l.dropWhile p = c :: t → p c = false := by
  intro l
  induction l with
  | nil => intro c t h; cases h
  | cons y ys ih =>
      intro c t h
      rw [List.dropWhile_cons] at h
      rcases Bool.eq_false_or_eq_true (p y) with hy | hy
      · rw [hy] at h
        simp only [if_true] at h
        exact ih c t h
      · rw [hy] at h
        simp only [Bool.false_eq_true, if_false] at h
        cases h
        exact hy

/-- A scheme character is not a colon, a slash or a hash. -/
theorem schemeChar_ne (c : Char) (h : isSchemeChar c = true) :
    (!(c = ':')) = true ∧ (!(c = '#')) = true := by
  have hcolon : c ≠ ':' := by
    intro he
    rw [he] at h
    exact absurd h (by decide)
  have hhash : c ≠ '#' := by
    intro he
    rw [he] at h
    exact absurd h (by decide)
  constructor
  · simp [hcolon]
  · simp [hhash]

/-- Building a URI from a valid scheme: it is absolute and the scheme is
read back. -/
theorem scheme_intro (pre tail : List Char) (hne : pre ≠ [])
    (hall : ∀ c ∈ pre, isSchemeChar c = true)
    (hhd : ∀ c rest, pre = c :: rest → c.isAlpha = true) :
    hasScheme (pre ++ ':' :: tail) = true ∧ schemeOf (pre ++ ':' :: tail) = pre := by
  have hsch : schemeOf (pre ++ ':' :: tail) = pre := by
    rw [schemeOf, takeWhile_append_all _ pre (':' :: tail)
      (fun c hc => (schemeChar_ne c (hall c hc)).1)]
    rw [List.takeWhile_cons]
    simp
  refine ⟨?_, hsch⟩
  rw [hasScheme]
  simp only [hsch]
  cases pre with
  | nil => exact absurd rfl hne
  | cons c rest =>
      simp only [List.isEmpty_cons, Bool.not_false, Bool.true_and]
      have h1 : (c :: rest).length < ((c :: rest) ++ ':' :: tail).length := by
        rw [List.length_append]
        simp
      have h2 : c.isAlpha = true := hhd c rest rfl
      have h3 : (c :: rest).all isSchemeChar = true := by
        rw [List.all_eq_true]
        intro x hx
        exact hall x hx
      simp [h1, h2, h3]

/-- Dropping past a block and one separator. -/
theorem drop_len_cons {α : Type} (l1 : List α) (x : α) (l2 : List α) :
    (l1 ++ x :: l2).drop (l1.length + 1) = l2 := by
  induction l1 with
  | nil => rfl
  | cons y ys ih =>
      rw [List.cons_append]
      simp only [List.length_cons]
      rw [List.drop_succ_cons]
      exact ih

/-- An absolute http-like base decomposes as scheme, colon, rest, with a
slash in the rest. -/
theorem absHttpBase_parts (base : String) (hb : absHttpBase base = true) :
    ∃ t : List Char,
      base.data = schemeOf base.data ++ ':' :: t ∧
      schemeOf base.data ≠ [] ∧
      (∀ c ∈ schemeOf base.data, isSchemeChar c = true) ∧
      (∀ c rest, schemeOf base.data = c :: rest → c.isAlpha = true) ∧
      '/' ∈ t := by
  rw [absHttpBase, Bool.and_eq_true] at hb
  obtain ⟨hsch, hslash⟩ := hb
  rw [hasScheme] at hsch
  simp only [Bool.and_eq_true, Bool.not_eq_eq_eq_not, Bool.not_true, decide_eq_true_eq] at hsch
  obtain ⟨⟨⟨hne, hlen⟩, hhd⟩, hall⟩ := hsch
  have hsplit : base.data = schemeOf base.data ++ base.data.dropWhile (fun c => !(c = ':')) := by
    rw [schemeOf]
    exact (List.takeWhile_append_dropWhile (p := fun c => !(c = ':')) (l := base.data)).symm
  set pre := schemeOf base.data with hpre
  cases hdw : base.data.dropWhile (fun c => !(c = ':')) with
  | nil =>
      exfalso
      rw [hdw, List.append_nil] at hsplit
      have hlen2 := congrArg List.length hsplit
      omega
  | cons c t =>
      have hcfalse : (!decide (c = ':')) = false :=
        dropWhile_head_false (fun c => !(c = ':')) base.data c t hdw
      have hc : c = ':' := by
        cases h4 : decide (c = ':') with
        | true => exact of_decide_eq_true h4
        | false =>
            rw [h4] at hcfalse
            simp at hcfalse
      subst hc
      rw [hdw] at hsplit
      refine ⟨t, hsplit, ?_, ?_, ?_, ?_⟩
      · intro he
        rw [he] at hne
        simp at hne
      · exact List.all_eq_true.mp hall
      · intro c rest hcr
        rw [hcr] at hhd
        exact hhd
      · have hdrop : base.data.drop (pre.length + 1) = t := by
          rw [hsplit]
          exact drop_len_cons pre ':' t
        rw [hdrop] at hslash
        rw [List.any_eq_true] at hslash
        obtain ⟨x, hx, hxe⟩ := hslash
        rw [decide_eq_true_eq] at hxe
        rw [← hxe]
        exact hx

/-- Resolution against an absolute http-like base always yields an
absolute URL, whatever the relative reference. -/
theorem urljoin_abs (base rel : String) (hb : absHttpBase base = true) :
    isAbsUrl (urljoin base rel) = true := by
  have hsch : hasScheme base.data = true := by
    rw [absHttpBase, Bool.and_eq_true] at hb
    exact hb.1
  obtain ⟨t, hsplit, hne, hall, hhd, hslash⟩ := absHttpBase_parts base hb
  set pre := schemeOf base.data with hpre
  have hdrop : base.data.drop (pre.length + 1) = t := by
    rw [hsplit]
    exact drop_len_cons pre ':' t
  show hasScheme (urljoinL base.data rel.data) = true
  rw [urljoinL]
  rcases Bool.eq_false_or_eq_true rel.data.isEmpty with hemp | hemp
  · rw [hemp]
    simp only [if_true]
    exact hsch
  · rw [hemp]
    simp only [Bool.false_eq_true, if_false]
    rcases Bool.eq_false_or_eq_true (hasScheme rel.data) with hrs | hrs
    · rw [hrs]
      simp only [if_true]
      exact hrs
    · rw [hrs]
      simp only [Bool.false_eq_true, if_false]
      rcases Bool.eq_false_or_eq_true (leadsWith ['/', '/'] rel.data) with hss | hss
      · rw [hss]
        simp only [if_true]
        have he : schemeOf base.data ++ [':'] ++ rel.data = pre ++ ':' :: rel.data := by
          rw [← hpre, List.append_assoc]
          rfl
        rw [he]
        exact (scheme_intro pre rel.data hne hall hhd).1
      · rw [hss]
        simp only [Bool.false_eq_true, if_false]
        rcases Bool.eq_false_or_eq_true (leadsWith ['/'] rel.data) with habs | habs
        · rw [habs]
          simp only [if_true]
          rw [originOf]
          simp only [← hpre, hdrop]
          rcases Bool.eq_false_or_eq_true (leadsWith ['/', '/'] t) with hau | hau
          · rw [hau]
            simp only [if_true]
            have he : (pre ++ [':', '/', '/'] ++ (t.drop 2).takeWhile (fun c => !(c = '/')))
                ++ rel.data
                = pre ++ ':' :: ('/' :: '/' ::
                    ((t.drop 2).takeWhile (fun c => !(c = '/')) ++ rel.data)) := by
              simp [List.append_assoc]
            rw [he]
            exact (scheme_intro pre _ hne hall hhd).1
          · rw [hau]
            simp only [Bool.false_eq_true, if_false]
            have he : (pre ++ [':']) ++ rel.data = pre ++ ':' :: rel.data := by
              rw [List.append_assoc]
              rfl
            rw [he]
            exact (scheme_intro pre rel.data hne hall hhd).1
        · rw [habs]
          simp only [Bool.false_eq_true, if_false]
          rcases Bool.eq_false_or_eq_true (leadsWith ['#'] rel.data) with hfr | hfr
          · rw [hfr]
            simp only [if_true]
            rw [stripFrag, hsplit]
            rw [takeWhile_append_all _ pre (':' :: t)
              (fun c hc => (schemeChar_ne c (hall c hc)).2)]
            rw [List.takeWhile_cons]
            have hcol : (!((':' : Char) = '#')) = true := by decide
            rw [hcol]
            simp only [if_true]
            have he : (pre ++ ':' :: t.takeWhile (fun c => !(c = '#'))) ++ rel.data
                = pre ++ ':' :: (t.takeWhile (fun c => !(c = '#')) ++ rel.data) := by
              simp [List.append_assoc]
            rw [he]
            exact (scheme_intro pre _ hne hall hhd).1
          · rw [hfr]
            simp only [Bool.false_eq_true, if_false]
            rw [dirOf, hsplit]
            have hr : (pre ++ ':' :: t).reverse = t.reverse ++ ([':'] ++ pre.reverse) := by
              simp [List.reverse_append, List.reverse_cons, List.append_assoc]
            rw [hr]
            rw [dropWhile_append_stop _ t.reverse ([':'] ++ pre.reverse)
              ⟨'/', List.mem_reverse.mpr hslash, by decide⟩]
            have he : ((t.reverse.dropWhile (fun c => !(c = '/')))
                ++ ([':'] ++ pre.reverse)).reverse ++ rel.data
                = pre ++ ':' :: ((t.reverse.dropWhile (fun c => !(c = '/'))).reverse
                    ++ rel.data) := by
              simp [List.reverse_append, List.append_assoc]
            rw [he]
            exact (scheme_intro pre _ hne hall hhd).1

/-- The href rewrite acts pointwise on the first href binding. -/
theorem lookup_fixAttrs (base : String) (a : List (String × String)) :
    lookupAttr "href" (fixAttrs base a) = (lookupAttr "href" a).map (resolveHref base) := by
  induction a with
  | nil => rfl
  | cons q ps ih =>
      have hfix : fixAttrs base (q :: ps) =
          (if q.1 = "href" then (q.1, resolveHref base q.2) else q) :: fixAttrs base ps := by
        rw [fixAttrs, fixAttrs, List.map_cons]
      by_cases hq : q.1 = "href"
      · rw [hfix, if_pos hq]
        rw [lookupAttr, lookupAttr]
        rw [List.find?_cons_of_pos _ (by simp [hq])]
        rw [List.find?_cons_of_pos _ (by simp [hq])]
        rfl
      · rw [hfix, if_neg hq]
        rw [lookupAttr, lookupAttr]
        rw [List.find?_cons_of_neg _ (by simp [hq])]
        rw [List.find?_cons_of_neg _ (by simp [hq])]
        exact ih

/-- The href-resolution pass maps resolveHref over the anchor hrefs. -/
theorem aHrefs_fixHrefs (base : String) :
    (∀ n : Node, aHrefsN (fixHrefsN base n) = (aHrefsN n).map (resolveHref base)) ∧
    (∀ l : List Node, aHrefsF (fixHrefsF base l) = (aHrefsF l).map (resolveHref base)) := by
  have he : ∀ t a cs, aHrefsF (fixHrefsF base cs) = (aHrefsF cs).map (resolveHref base) →
      aHrefsN (fixHrefsN base (.elem t a cs)) =
        (aHrefsN (.elem t a cs)).map (resolveHref base) := by
    intro t a cs ih
    rw [fixHrefsN, aHrefsN, aHrefsN, List.map_append, ih]
    by_cases ht : t = "a"
    · rw [ht]
      simp only [if_true]
      have hl := lookup_fixAttrs base a
      cases hfa : lookupAttr "href" a with
      | none =>
          rw [hfa] at hl
          rw [hl]
          rfl
      | some v =>
          rw [hfa] at hl
          rw [hl]
          rfl
    · simp [ht]
  have ht2 : ∀ s, aHrefsN (fixHrefsN base (.text s)) =
      (aHrefsN (.text s)).map (resolveHref base) := fun s => rfl
  have hc2 : ∀ s, aHrefsN (fixHrefsN base (.comment s)) =
      (aHrefsN (.comment s)).map (resolveHref base) := fun s => rfl
  have hco : ∀ n l, aHrefsN (fixHrefsN base n) = (aHrefsN n).map (resolveHref base) →
      aHrefsF (fixHrefsF base l) = (aHrefsF l).map (resolveHref base) →
      aHrefsF (fixHrefsF base (n :: l)) = (aHrefsF (n :: l)).map (resolveHref base) := by
    intro n l ihn ihl
    rw [fixHrefsF, aHrefsF, aHrefsF, List.map_append, ihn, ihl]
  exact ⟨nodeRecAux
      (P := fun n => aHrefsN (fixHrefsN base n) = (aHrefsN n).map (resolveHref base))
      (Q := fun l => aHrefsF (fixHrefsF base l) = (aHrefsF l).map (resolveHref base))
      he ht2 hc2 rfl hco,
    forestRecAux
      (P := fun n => aHrefsN (fixHrefsN base n) = (aHrefsN n).map (resolveHref base))
      (Q := fun l => aHrefsF (fixHrefsF base l) = (aHrefsF l).map (resolveHref base))
      he ht2 hc2 rfl hco⟩

/-- C6 (amended): the link-resolution pass rewrites every anchor href by
resolveHref; an href in which the substring :// does not occur (the
code's relativity test) and which is nonempty is resolved against the
document's absolute origin URL to an absolute URL, while an empty href or
one containing :// (even a relative reference such as a path with :// in
it) is left unchanged. -/
theorem fixHrefs_resolves_C6 (base : String) (l : List Node)
    (hb : absHttpBase base = true) :
    (aHrefsF (fixHrefsF base l) = (aHrefsF l).map (resolveHref base)) ∧
    (∀ v : String, v = "" ∨ sContains v "://" = true → resolveHref base v = v) ∧
    (∀ v : String, ¬(v = "") → sContains v "://" = false →
      isAbsUrl (resolveHref base v) = true) := by
  refine ⟨(aHrefs_fixHrefs base).2 l, ?_, ?_⟩
  · intro v hv
    rw [resolveHref]
    rcases hv with hv | hv
    · rw [hv]
      simp
    · rw [hv]
      simp
  · intro v hv1 hv2
    rw [resolveHref, hv2]
    simp only [Bool.not_false, Bool.and_true]
    rw [if_pos (by simp [hv1])]
    exact urljoin_abs base v hb

/-- C6 counterexample to the claim as stated: the href a/b://c is a
relative reference (it has no valid scheme), yet the resolution pass
leaves it unchanged and non-absolute, because it contains the substring
:// that the code uses as its absoluteness test. -/
theorem fixHrefs_counterexample_C6 :
    isRelRef "a/b://c" = true ∧
    aHrefsF wHrefCexDoc = ["a/b://c"] ∧
    aHrefsF (fixHrefsF "http://example.com/d/" wHrefCexDoc) = ["a/b://c"] ∧
    isAbsUrl "a/b://c" = false ∧
    absHttpBase "http://example.com/d/" = true := by
  refine ⟨by decide, rfl, rfl, by decide, by decide⟩

/-- C6 (amended) instantiated: a relative href without :// is rewritten
to an absolute URL. -/
theorem fixHrefs_resolves_C6_witness :
    aHrefsF (fixHrefsF "http://example.com/a/b" wHrefDoc) =
      (aHrefsF wHrefDoc).map (resolveHref "http://example.com/a/b") ∧
    isAbsUrl (resolveHref "http://example.com/a/b" "c.html") = true :=
  ⟨(fixHrefs_resolves_C6 "http://example.com/a/b" wHrefDoc (by decide)).1,
   (fixHrefs_resolves_C6 "http://example.com/a/b" wHrefDoc (by decide)).2.2 "c.html"
     (by decide) (by decide)⟩

/-- A URL ending in .jpg has URL-extension jpg. -/
theorem extOf_jpg (s : String) (h : sEnds s ".jpg" = true) :
    lowerStr (extOf s) = "jpg" ∧ ¬(s = "") := by
  rw [sEnds] at h
  obtain ⟨t, ht⟩ := leadsWith_ex _ s.data.reverse h
  constructor
  · rw [lowerStr, extOf, ht]
    rfl
  · intro he
    rw [he] at ht
    cases ht

/-- A URL ending in .png has URL-extension png. -/
theorem extOf_png (s : String) (h : sEnds s ".png" = true) :
    lowerStr (extOf s) = "png" ∧ ¬(s = "") := by
  rw [sEnds] at h
  obtain ⟨t, ht⟩ := leadsWith_ex _ s.data.reverse h
  constructor
  · rw [lowerStr, extOf, ht]
    rfl
  · intro he
    rw [he] at ht
    cases ht

/-- Bytes starting with the PNG magic are not gzip data and sniff as png. -/
theorem pngMagic_sniff (bs : List Nat) (h : leadsWith pngMagic bs = true) :
    leadsWith gzMagic bs = false ∧ sniffExt bs = some "png" := by
  obtain ⟨t, ht⟩ := leadsWith_ex pngMagic bs h
  subst ht
  constructor
  · rfl
  · rw [sniffExt, h]
    simp

/-- The decision for an img element whose src is absolute and ends in a
known extension. -/
theorem imgDecision_knownExt (fetch : String → List Nat) (gunzip : List Nat → List Nat)
    (base : String) (i : Nat) (n : Node) (s e : String)
    (hsrc : getAttr n "src" = some s) (hne : ¬(s = "")) (habs : sContains s "://" = true)
    (hext : lowerStr (extOf s) = e) (hknown : knownImgExt e = true) :
    imgDecision fetch gunzip base i n = some (imgFilename i e) := by
  rw [imgDecision, hsrc]
  simp only [hne, if_false, habs, if_true, hext, hknown]

/-- The decision for an img element whose src is absolute, has an unknown
URL extension, and whose fetched bytes carry the PNG magic. -/
theorem imgDecision_sniffPng (fetch : String → List Nat) (gunzip : List Nat → List Nat)
    (base : String) (i : Nat) (n : Node) (s : String)
    (hsrc : getAttr n "src" = some s) (hne : ¬(s = "")) (habs : sContains s "://" = true)
    (hunk : knownImgExt (lowerStr (extOf s)) = false)
    (hmag : leadsWith pngMagic (fetch s) = true) :
    imgDecision fetch gunzip base i n = some (imgFilename i "png") := by
  obtain ⟨hgz, hsniff⟩ := pngMagic_sniff (fetch s) hmag
  rw [imgDecision, hsrc]
  simp only [hne, if_false, habs, if_true, hunk, hgz, hsniff, Bool.false_eq_true]

/-- C2: three img elements whose sources end in .jpg and .png and whose
third has an unknown URL extension but PNG magic bytes are localized, in
document order, as image000.jpg, image001.png and image002.png. -/
theorem img_localize_C2 (fetch : String → List Nat) (gunzip : List Nat → List Nat)
    (base : String) (l : List Node) (n1 n2 n3 : Node) (s1 s2 s3 : String)
    (hc : collectImgs l = [n1, n2, n3])
    (h1 : getAttr n1 "src" = some s1) (ha1 : sContains s1 "://" = true)
    (he1 : sEnds s1 ".jpg" = true)
    (h2 : getAttr n2 "src" = some s2) (ha2 : sContains s2 "://" = true)
    (he2 : sEnds s2 ".png" = true)
    (h3 : getAttr n3 "src" = some s3) (ha3 : sContains s3 "://" = true)
    (hu3 : knownImgExt (lowerStr (extOf s3)) = false)
    (hm3 : leadsWith pngMagic (fetch s3) = true)
    (hn3 : ¬(s3 = "")) :
    imgNames fetch gunzip base l =
      [some "image000.jpg", some "image001.png", some "image002.png"] := by
  obtain ⟨hx1, hne1⟩ := extOf_jpg s1 he1
  obtain ⟨hx2, hne2⟩ := extOf_png s2 he2
  rw [imgNames, hc]
  have hd1 := imgDecision_knownExt fetch gunzip base 0 n1 s1 "jpg" h1 hne1 ha1 hx1 (by decide)
  have hd2 := imgDecision_knownExt fetch gunzip base 1 n2 s2 "png" h2 hne2 ha2 hx2 (by decide)
  have hd3 := imgDecision_sniffPng fetch gunzip base 2 n3 s3 h3 hn3 ha3 hu3 hm3
  simp only [List.enum, List.enumFrom, List.map]
  rw [hd1, hd2, hd3]
  rfl

/-- C2 instantiated on a concrete document and fetcher. -/
theorem img_localize_C2_witness :
    imgNames wFetch (fun bs => bs) "http://img.example/" wImgsDoc =
      [some "image000.jpg", some "image001.png", some "image002.png"] :=
  img_localize_C2 wFetch (fun bs => bs) "http://img.example/" wImgsDoc
    (Node.elem "img" [("src", "http://img.example/a.jpg")] [])
    (Node.elem "img" [("src", "http://img.example/b.png")] [])
    (Node.elem "img" [("src", "http://img.example/three")] [])
    "http://img.example/a.jpg" "http://img.example/b.png" "http://img.example/three"
    rfl rfl (by decide) (by decide) rfl (by decide) (by decide) rfl (by decide)
    (by decide) (by decide) (by decide)

/-- C10 (implicit): the sequential index counts every img element in
document order, including discarded ones: an img with no source consumes
index 0 and the next (kept) image is named image001, not image000. -/
theorem img_index_gaps_C10 (fetch : String → List Nat) (gunzip : List Nat → List Nat)
    (base : String) (l : List Node) (n1 n2 : Node) (s2 : String)
    (hc : collectImgs l = [n1, n2])
    (h1 : getAttr n1 "src" = none)
    (h2 : getAttr n2 "src" = some s2) (ha2 : sContains s2 "://" = true)
    (he2 : sEnds s2 ".png" = true) :
    imgNames fetch gunzip base l = [none, some "image001.png"] := by
  obtain ⟨hx2, hne2⟩ := extOf_png s2 he2
  rw [imgNames, hc]
  have hd2 := imgDecision_knownExt fetch gunzip base 1 n2 s2 "png" h2 hne2 ha2 hx2 (by decide)
  have hd1 : imgDecision fetch gunzip base 0 n1 = none := by
    rw [imgDecision, h1]
  simp only [List.enum, List.enumFrom, List.map]
  rw [hd1, hd2]
  rfl

/-- C10 instantiated: a source-less img consumes index 0; the kept image
is image001.png. -/
theorem img_index_gaps_C10_witness :
    imgNames wFetch (fun bs => bs) "http://img.example/" wImgsDoc2 =
      [none, some "image001.png"] :=
  img_index_gaps_C10 wFetch (fun bs => bs) "http://img.example/" wImgsDoc2
    (Node.elem "img" [("alt", "decorative")] [])
    (Node.elem "img" [("src", "http://img.example/b.png")] [])
    "http://img.example/b.png" rfl rfl rfl (by decide) (by decide)

set_option maxHeartbeats 1600000 in
/-- C1: on a document with one question vote-cell table (post-text block,
no answer-cell marker) and two answer vote-cell tables (post-text block
plus answer-cell marker), the rebuilt body keeps the original top-level
heading first, then holds exactly one "Answer 1" and one "Answer 2"
heading, in that order; the answer counter starts at 1 and increments
once per answer table, ending at 2. -/
theorem so_restructure_C1 (title q a1 a2 : String)
    (ht1 : title ≠ "Answer 1") (ht2 : title ≠ "Answer 2") :
    soTrigger (soFixture title q a1 a2) = true ∧
    soNewBody (soFixture title q a1 a2) =
      [Node.elem "h1" [] [.text title], Node.elem "p" [] [.text q],
       Node.elem "h2" [] [.text "Answer 1"], Node.elem "p" [] [.text a1],
       Node.elem "h2" [] [.text "Answer 2"], Node.elem "p" [] [.text a2]] ∧
    headingTexts (soNewBody (soFixture title q a1 a2)) =
      [("h1", title), ("h2", "Answer 1"), ("h2", "Answer 2")] ∧
    countHeadingText (soNewBody (soFixture title q a1 a2)) "Answer 1" = 1 ∧
    countHeadingText (soNewBody (soFixture title q a1 a2)) "Answer 2" = 1 ∧
    (soRebuild (soPrep (soFixture title q a1 a2))).1 = 2 := by
  have hprep : soPrep (soFixture title q a1 a2) = soFixture title q a1 a2 := rfl
  have hpaths : findPathsF isVotecell 0 (soFixture title q a1 a2) =
      [[0, 1, 1, 0, 0], [0, 1, 2, 0, 0], [0, 1, 3, 0, 0]] := by
    simp only [soFixture, soQTable, soATable, soVoteTd, findPathsF, findPathsN,
      isVotecell, tagIs, hasClassTok, getAttr, lookupAttr, List.find?, splitWS,
      splitWSAux, isWSChar, List.map, List.append]
    norm_num
  have ht : soTitle (soFixture title q a1 a2) = some (Node.elem "h1" [] [.text title]) := rfl
  have hvc1 : processVC (soFixture title q a1 a2)
      (0, [Node.elem "h1" [] [.text title]]) [0, 1, 1, 0, 0] =
      (0, [Node.elem "h1" [] [.text title], Node.elem "p" [] [.text q]]) := rfl
  have hvc2 : processVC (soFixture title q a1 a2)
      (0, [Node.elem "h1" [] [.text title], Node.elem "p" [] [.text q]]) [0, 1, 2, 0, 0] =
      (1, [Node.elem "h1" [] [.text title], Node.elem "p" [] [.text q],
           Node.elem "h2" [] [.text "Answer 1"], Node.elem "p" [] [.text a1]]) := rfl
  have hvc3 : processVC (soFixture title q a1 a2)
      (1, [Node.elem "h1" [] [.text title], Node.elem "p" [] [.text q],
           Node.elem "h2" [] [.text "Answer 1"], Node.elem "p" [] [.text a1]]) [0, 1, 3, 0, 0] =
      (2, [Node.elem "h1" [] [.text title], Node.elem "p" [] [.text q],
           Node.elem "h2" [] [.text "Answer 1"], Node.elem "p" [] [.text a1],
           Node.elem "h2" [] [.text "Answer 2"], Node.elem "p" [] [.text a2]]) := rfl
  have hall : soRebuild (soPrep (soFixture title q a1 a2)) =
      (2, [Node.elem "h1" [] [.text title], Node.elem "p" [] [.text q],
           Node.elem "h2" [] [.text "Answer 1"], Node.elem "p" [] [.text a1],
           Node.elem "h2" [] [.text "Answer 2"], Node.elem "p" [] [.text a2]]) := by
    rw [hprep]
    show (findPathsF isVotecell 0 (soFixture title q a1 a2)).foldl
        (processVC (soFixture title q a1 a2))
        (0, (soTitle (soFixture title q a1 a2)).toList) = _
    rw [hpaths, ht]
    show ([[0, 1, 1, 0, 0], [0, 1, 2, 0, 0], [0, 1, 3, 0, 0]].foldl
        (processVC (soFixture title q a1 a2))
        (0, [Node.elem "h1" [] [.text title]])) = _
    rw [List.foldl_cons, hvc1, List.foldl_cons, hvc2, List.foldl_cons, hvc3, List.foldl_nil]
  have hbody : soNewBody (soFixture title q a1 a2) =
      [Node.elem "h1" [] [.text title], Node.elem "p" [] [.text q],
       Node.elem "h2" [] [.text "Answer 1"], Node.elem "p" [] [.text a1],
       Node.elem "h2" [] [.text "Answer 2"], Node.elem "p" [] [.text a2]] := by
    show (soRebuild (soPrep (soFixture title q a1 a2))).2 = _
    rw [hall]
  have hheads : headingTexts (soNewBody (soFixture title q a1 a2)) =
      [("h1", title), ("h2", "Answer 1"), ("h2", "Answer 2")] := by
    rw [hbody]
    rfl
  refine ⟨rfl, hbody, hheads, ?_, ?_, ?_⟩
  · rw [countHeadingText, hheads]
    rw [List.countP_cons, List.countP_cons, List.countP_cons, List.countP_nil]
    simp [ht1]
  · rw [countHeadingText, hheads]
    rw [List.countP_cons, List.countP_cons, List.countP_cons, List.countP_nil]
    simp [ht2]
  · rw [hall]

/-- C1 instantiated at concrete strings. -/
theorem so_restructure_C1_witness :
    soTrigger (soFixture "T" "Q" "A" "B") = true ∧
    soNewBody (soFixture "T" "Q" "A" "B") =
      [Node.elem "h1" [] [.text "T"], Node.elem "p" [] [.text "Q"],
       Node.elem "h2" [] [.text "Answer 1"], Node.elem "p" [] [.text "A"],
       Node.elem "h2" [] [.text "Answer 2"], Node.elem "p" [] [.text "B"]] ∧
    headingTexts (soNewBody (soFixture "T" "Q" "A" "B")) =
      [("h1", "T"), ("h2", "Answer 1"), ("h2", "Answer 2")] ∧
    countHeadingText (soNewBody (soFixture "T" "Q" "A" "B")) "Answer 1" = 1 ∧
    countHeadingText (soNewBody (soFixture "T" "Q" "A" "B")) "Answer 2" = 1 ∧
    (soRebuild (soPrep (soFixture "T" "Q" "A" "B"))).1 = 2 :=
  so_restructure_C1 "T" "Q" "A" "B" (by decide) (by decide)
